import Mathlib

/-!
Verification of the VQE training engine of PhaseEstimation (vqe.py and
losses.py), as a shallow embedding.

Modelling conventions:
* complex amplitudes handled by the jax arrays are modelled exactly, as
  pairs of rationals (structure Cx below);
* jax.jit and the jitted wrappers are semantic identities, so a jitted
  function is embedded as the function it wraps;
* jnp.mean of an empty array produces a NaN; a possibly-NaN real is
  modelled as an Option, with none for NaN;
* the pennylane circuit simulator, the jax RNG and the Adam optimizer of
  jax.example_libraries are external to the repository and enter the
  embedding as abstract function parameters;
* a batched evaluation that may raise an out-of-memory RuntimeError is
  embedded as an Except value driven by a failure oracle.
-/

/-- Complex numbers with rational components: the exact model of the
complex scalars handled by the jax arrays in vqe.py and losses.py. -/
@[ext]
structure Cx where
  re : ℚ
  im : ℚ
deriving DecidableEq

namespace Cx

/-- Embedding of a real (rational) scalar as a complex scalar. -/
def ofRat (q : ℚ) : Cx := ⟨q, 0⟩

instance : Zero Cx := ⟨⟨0, 0⟩⟩

instance : One Cx := ⟨⟨1, 0⟩⟩

instance : Add Cx := ⟨fun a b => ⟨a.re + b.re, a.im + b.im⟩⟩

instance : Neg Cx := ⟨fun a => ⟨-a.re, -a.im⟩⟩

instance : Mul Cx := ⟨fun a b => ⟨a.re * b.re - a.im * b.im, a.re * b.im + a.im * b.re⟩⟩

instance : CommRing Cx where
  add := (· + ·)
  zero := 0
  one := 1
  mul := (· * ·)
  neg := (- ·)
  nsmul := nsmulRec
  zsmul := zsmulRec
  add_assoc a b c := by
    apply Cx.ext
    · show (a.re + b.re) + c.re = a.re + (b.re + c.re); ring
    · show (a.im + b.im) + c.im = a.im + (b.im + c.im); ring
  zero_add a := by
    apply Cx.ext
    · show 0 + a.re = a.re; ring
    · show 0 + a.im = a.im; ring
  add_zero a := by
    apply Cx.ext
    · show a.re + 0 = a.re; ring
    · show a.im + 0 = a.im; ring
  add_comm a b := by
    apply Cx.ext
    · show a.re + b.re = b.re + a.re; ring
    · show a.im + b.im = b.im + a.im; ring
  neg_add_cancel a := by
    apply Cx.ext
    · show -a.re + a.re = 0; ring
    · show -a.im + a.im = 0; ring
  mul_assoc a b c := by
    apply Cx.ext
    · show (a.re * b.re - a.im * b.im) * c.re - (a.re * b.im + a.im * b.re) * c.im
        = a.re * (b.re * c.re - b.im * c.im) - a.im * (b.re * c.im + b.im * c.re)
      ring
    · show (a.re * b.re - a.im * b.im) * c.im + (a.re * b.im + a.im * b.re) * c.re
        = a.re * (b.re * c.im + b.im * c.re) + a.im * (b.re * c.re - b.im * c.im)
      ring
  one_mul a := by
    apply Cx.ext
    · show 1 * a.re - 0 * a.im = a.re; ring
    · show 1 * a.im + 0 * a.re = a.im; ring
  mul_one a := by
    apply Cx.ext
    · show a.re * 1 - a.im * 0 = a.re; ring
    · show a.re * 0 + a.im * 1 = a.im; ring
  mul_comm a b := by
    apply Cx.ext
    · show a.re * b.re - a.im * b.im = b.re * a.re - b.im * a.im; ring
    · show a.re * b.im + a.im * b.re = b.re * a.im + b.im * a.re; ring
  left_distrib a b c := by
    apply Cx.ext
    · show a.re * (b.re + c.re) - a.im * (b.im + c.im)
        = (a.re * b.re - a.im * b.im) + (a.re * c.re - a.im * c.im)
      ring
    · show a.re * (b.im + c.im) + a.im * (b.re + c.re)
        = (a.re * b.im + a.im * b.re) + (a.re * c.im + a.im * c.re)
      ring
  right_distrib a b c := by
    apply Cx.ext
    · show (a.re + b.re) * c.re - (a.im + b.im) * c.im
        = (a.re * c.re - a.im * c.im) + (b.re * c.re - b.im * c.im)
      ring
    · show (a.re + b.re) * c.im + (a.im + b.im) * c.re
        = (a.re * c.im + a.im * c.re) + (b.re * c.im + b.im * c.re)
      ring
  zero_mul a := by
    apply Cx.ext
    · show 0 * a.re - 0 * a.im = 0; ring
    · show 0 * a.im + 0 * a.re = 0; ring
  mul_zero a := by
    apply Cx.ext
    · show a.re * 0 - a.im * 0 = 0; ring
    · show a.re * 0 + a.im * 0 = 0; ring

/-- Complex conjugation, the model of jnp.conj. -/
def conj (a : Cx) : Cx := ⟨a.re, -a.im⟩

/-- Squared modulus, the model of jnp.square(jnp.abs(z)) for a complex
scalar z (the square cancels the square root, exactly). -/
def normSq (a : Cx) : ℚ := a.re * a.re + a.im * a.im

/-- Real part as an additive monoid homomorphism (used to push the real
part through jax array sums). -/
def reHom : Cx →+ ℚ where
  toFun := Cx.re
  map_zero' := rfl
  map_add' _ _ := rfl

/-- Imaginary part as an additive monoid homomorphism. -/
def imHom : Cx →+ ℚ where
  toFun := Cx.im
  map_zero' := rfl
  map_add' _ _ := rfl

end Cx

/-! Array-level primitives shared by losses.py and vqe.py.  A quantum
state over d amplitudes is a function Fin d → Cx; a batch of states is a
List of them; a Hamiltonian matrix is Fin d → Fin d → Cx. -/

/-- Mean of a jax 1-D array (jnp.mean): sum divided by length; the mean
of an empty array is a NaN, modelled as none. -/
def meanQ (l : List ℚ) : Option ℚ :=
  if l = [] then none else some (l.sum / (l.length : ℚ))

/-- Inner product jnp.conj(a) @ b of two equal-length 1-D complex
arrays. -/
def dotc {d : ℕ} (a b : Fin d → Cx) : Cx :=
  ∑ i, (a i).conj * b i

/-- Squared norm of a state: the sum of the squared moduli of its
amplitudes (a state produced by the circuit simulator is unit-norm,
norm2 s = 1). -/
def norm2 {d : ℕ} (a : Fin d → Cx) : ℚ :=
  ∑ i, (a i).normSq

/-- Fidelity of two states, from losses.py: vqe_fidelty inside
vqe_fidelties computes jnp.square(jnp.abs(jnp.conj(psi_out) @ y)), the
squared modulus of the overlap. -/
def vqe_fidelty {d : ℕ} (psi_out y : Fin d → Cx) : ℚ :=
  (dotc psi_out y).normSq

/-- losses.vqe_fidelties: mean fidelity between the reference states Y
and the circuit outputs on the parameter rows (q_circuit is the
simulator, an abstract parameter sim here).  The vmap pairs Y[i] with
params[i]; the zip truncates to the shorter input exactly as vmap
requires equal leading axes. -/
def vqe_fidelties {d : ℕ} (Y : List (Fin d → Cx)) (params : List (List ℚ))
    (sim : List ℚ → Fin d → Cx) : Option ℚ :=
  meanQ ((Y.zip params).map fun yp => vqe_fidelty (sim yp.2) yp.1)

/-- losses.vqe_fidelties_neighbouring: mean fidelity of states[:-1]
paired elementwise with states[1:] (consecutive pairs in grid order). -/
def vqe_fidelties_neighbouring {d : ℕ} (states : List (Fin d → Cx)) : Option ℚ :=
  meanQ ((states.dropLast.zip (states.drop 1)).map fun p => vqe_fidelty p.1 p.2)

/-- Transparent recursion computing the fidelities of exactly the
consecutive index pairs (i, i+1) of a state sequence; used to state what
the slice-and-zip of vqe_fidelties_neighbouring produces. -/
def consecFids {d : ℕ} : List (Fin d → Cx) → List ℚ
  | a :: b :: rest => vqe_fidelty a b :: consecFids (b :: rest)
  | _ => []

/-- vqe.train.compute_E: the complex scalar jnp.conj(state) @ Hmat @
state (no real part taken at this point in the source). -/
def compute_E {d : ℕ} (state : Fin d → Cx) (Hmat : Fin d → Fin d → Cx) : Cx :=
  ∑ i, (state i).conj * (∑ j, Hmat i j * state j)

/-- vqe.train.compute_vqe_E for one grid point: simulate the circuit on
the parameter row, evaluate compute_E and return the real part
(jnp.real). -/
def compute_vqe_E {d : ℕ} (sim : List ℚ → Fin d → Cx) (param : List ℚ)
    (Hmat : Fin d → Fin d → Cx) : ℚ :=
  (compute_E (sim param) Hmat).re

/-- vqe.train.v_compute_vqe_E (the redefinition at line 211 of vqe.py):
batched energies of all grid points, pairing the simulated state of
parameter row i with Hamiltonian matrix i. -/
def v_compute_vqe_E {d : ℕ} (sim : List ℚ → Fin d → Cx)
    (mats : List (Fin d → Fin d → Cx)) (params : List (List ℚ)) : List ℚ :=
  ((params.map sim).zip mats).map fun p => (compute_E p.1 p.2).re

/-- vqe.train.j_v_compute_vqe_E: jax.jit of v_compute_vqe_E.  jit is a
compilation directive with identical semantics, so the embedding is the
same function. -/
def j_v_compute_vqe_E {d : ℕ} (sim : List ℚ → Fin d → Cx)
    (mats : List (Fin d → Fin d → Cx)) (params : List (List ℚ)) : List ℚ :=
  v_compute_vqe_E sim mats params

/-- The diagnostic sample of vqe.train (independent mode, batched path):
jnp.mean(jnp.square(j_v_compute_vqe_E(params) - true_e)). -/
def mse_diag_batched {d : ℕ} (sim : List ℚ → Fin d → Cx)
    (mats : List (Fin d → Fin d → Cx)) (true_e : List ℚ)
    (params : List (List ℚ)) : Option ℚ :=
  meanQ (((j_v_compute_vqe_E sim mats params).zip true_e).map
    fun p => (p.1 - p.2) * (p.1 - p.2))

/-- The diagnostic sample of vqe.train (independent mode, non-jitted
fallback path used after an out-of-memory failure):
jnp.mean(jnp.square(v_compute_vqe_E(params) - true_e)). -/
def mse_diag_seq {d : ℕ} (sim : List ℚ → Fin d → Cx)
    (mats : List (Fin d → Fin d → Cx)) (true_e : List ℚ)
    (params : List (List ℚ)) : Option ℚ :=
  meanQ (((v_compute_vqe_E sim mats params).zip true_e).map
    fun p => (p.1 - p.2) * (p.1 - p.2))

/-! Reference computation (vqe.train.compute_true_state). -/

/-- Matrix-vector product of a Hamiltonian with a state. -/
def matVec {d : ℕ} (H : Fin d → Fin d → Cx) (v : Fin d → Cx) (i : Fin d) : Cx :=
  ∑ j, H i j * v j

/-- The 1-qubit Hamiltonian diag(1, -1) of the spec's reference test. -/
def diagZ : Fin 2 → Fin 2 → Cx :=
  fun i j => if i = j then (if i = 0 then 1 else -1) else 0

/-- Index and value of the first minimum of a list (jnp.argmin returns
the first occurrence of the minimum; ties break to the earlier index). -/
def minIdx : List ℚ → Option (ℕ × ℚ)
  | [] => none
  | x :: xs =>
    match minIdx xs with
    | none => some (0, x)
    | some jv => if x ≤ jv.2 then some (0, x) else some (jv.1 + 1, jv.2)

/-- vqe.train.compute_true_state: given the eigenvalues and the columns
of the eigenvector matrix returned by jnp.linalg.eigh, select the column
at the argmin of the eigenvalues.  An empty spectrum (jnp.argmin of an
empty array raises) is modelled as none. -/
def compute_true_state {d : ℕ} (eigval : List ℚ)
    (eigvec : List (Fin d → Cx)) : Option (Fin d → Cx) :=
  (minIdx eigval).bind fun jv => eigvec.get? jv.1

/-- vqe.train.jv_compute_true_state: the vmap of compute_true_state over
the grid of Hamiltonian matrices, with the eigendecomposition itself
(jnp.linalg.eigh, an external numerical routine) abstracted as eigh. -/
def jv_compute_true_state {d : ℕ}
    (eigh : (Fin d → Fin d → Cx) → List ℚ × List (Fin d → Cx))
    (mats : List (Fin d → Fin d → Cx)) : List (Option (Fin d → Cx)) :=
  mats.map fun H => compute_true_state (eigh H).1 (eigh H).2

/-! Independent-mode loss (vqe.train, recycle = False branch). -/

/-- vqe.train.loss in independent mode: batched states of all parameter
rows, mean of the real energies, plus reg times the neighbouring
fidelity penalty when reg is nonzero.  A NaN produced by either mean
propagates as none. -/
def lossIndep {d : ℕ} (sim : List ℚ → Fin d → Cx)
    (mats : List (Fin d → Fin d → Cx)) (reg : ℚ)
    (params : List (List ℚ)) : Option ℚ :=
  let pred_states := params.map sim
  let es := (pred_states.zip mats).map fun p => (compute_E p.1 p.2).re
  if reg ≠ 0 then
    match meanQ es, vqe_fidelties_neighbouring pred_states with
    | some m, some f => some (m + reg * f)
    | _, _ => none
  else
    meanQ es

/-! Recycle-mode schedule (vqe.train, recycle = True branch,
lines 281-344 of vqe.py). -/

/-- One training phase of recycle mode: which grid index is optimized,
for how many epochs, and (for regularized phases) the grid index whose
converged state is the regularization target previous_state. -/
structure TrainEvent where
  idx : ℕ
  epochs : ℕ
  regTarget : Option ℕ
deriving DecidableEq

/-- Tail of the recycle schedule: vqe.py iterates tqdm over
recycle_rule[1:], each phase running n_epochs epochs of update_reg with
previous_state the converged state of the phase trained immediately
before it (prev threads through). -/
def recycleScheduleTail (n_epochs : ℕ) (prev : ℕ) : List ℕ → List TrainEvent
  | [] => []
  | i :: rest => ⟨i, n_epochs, some prev⟩ :: recycleScheduleTail n_epochs i rest

/-- The full order of training phases executed by the recycle branch of
vqe.train: the first phase optimizes grid index 0 (the source hardcodes
idx = 0 before the 10*n_epochs warm-up loop) unregularized, then the
indices of recycle_rule[1:] follow, each regularized toward the
previously trained index. -/
def recycleSchedule (recycle_rule : List ℕ) (n_epochs : ℕ) : List TrainEvent :=
  ⟨0, 10 * n_epochs, none⟩ :: recycleScheduleTail n_epochs 0 (recycle_rule.drop 1)

/-! Engine construction and persistence (vqe.__init__, vqe.save,
load_vqe). -/

/-- The external Hamiltonian-grid collaborator, as consumed by the
engine: qubit count, number of grid points, matrices, true ground
energies and the externally supplied recycle traversal order. -/
structure HamGrid (d : ℕ) where
  N : ℕ
  n_states : ℕ
  mat_Hs : List (Fin d → Fin d → Cx)
  true_e : List ℚ
  recycle_rule : List ℕ

/-- The engine state set up by vqe.__init__ that the claims touch: the
grid, the discovered parameter count, the parameter tensor and the
stored circuit function. -/
structure VqeState (d : ℕ) where
  Hs : HamGrid d
  n_params : ℕ
  vqe_params : List (List ℚ)
  circuit_fun : ℕ → List ℚ → ℕ

/-- vqe.__init__: discover n_params by calling the circuit function once
on the placeholder [0] * 10000, then fill the (n_states, n_params)
parameter tensor entrywise from the RNG draw
np.random.uniform(-np.pi, np.pi, size=(n_states, n_params)).  The RNG is
abstracted as rand (low, high, entry position → draw) and the float
constant np.pi as the parameter piQ. -/
def vqeInit {d : ℕ} (Hs : HamGrid d) (circuit : ℕ → List ℚ → ℕ)
    (rand : ℚ → ℚ → ℕ → ℕ → ℚ) (piQ : ℚ) : VqeState d :=
  let n_params := circuit Hs.N (List.replicate 10000 0)
  { Hs := Hs
    n_params := n_params
    vqe_params := (List.range Hs.n_states).map fun i =>
      (List.range n_params).map fun j => rand (-piQ) piQ i j
    circuit_fun := circuit }

/-- vqe.save: the pickled blob is the triple
(Hs, vqe_params, circuit_fun). -/
def vqeSave {d : ℕ} (v : VqeState d) :
    HamGrid d × List (List ℚ) × (ℕ → List ℚ → ℕ) :=
  (v.Hs, v.vqe_params, v.circuit_fun)

/-- load_vqe: rebuild the engine through vqe.__init__ from the stored
grid and circuit function (drawing a fresh random tensor), then
overwrite vqe_params with the stored tensor. -/
def load_vqe {d : ℕ} (blob : HamGrid d × List (List ℚ) × (ℕ → List ℚ → ℕ))
    (rand : ℚ → ℚ → ℕ → ℕ → ℚ) (piQ : ℚ) : VqeState d :=
  let loaded := vqeInit blob.1 blob.2.2 rand piQ
  { loaded with vqe_params := blob.2.1 }

/-- Final StateTensor of an engine: one simulated state per parameter
row (vqe.train finalization, self.states). -/
def recomputeStates {d : ℕ} (sim : (ℕ → List ℚ → ℕ) → ℕ → List ℚ → Fin d → Cx)
    (v : VqeState d) : List (Fin d → Cx) :=
  v.vqe_params.map (sim v.circuit_fun v.Hs.N)

/-- Final energy array of an engine: the batched expected energies of
the recomputed states against the grid matrices (vqe.train finalization,
self.vqe_e). -/
def recomputeEnergies {d : ℕ} (sim : (ℕ → List ℚ → ℕ) → ℕ → List ℚ → Fin d → Cx)
    (v : VqeState d) : List ℚ :=
  ((recomputeStates sim v).zip v.Hs.mat_Hs).map fun p => (compute_E p.1 p.2).re

/-! Independent-mode epoch loop (vqe.train, recycle = False branch,
lines 246-280 and 349-354 of vqe.py). -/

/-- Configuration of one independent-mode run: the combined Adam update
step upd (params and optimizer state in, params and optimizer state
out — the jax optimizer is external), the circuit simulator, the grid
data, the failure oracle saying which batched diagnostic invocations
raise an out-of-memory RuntimeError, and the diagnostic period
epochs_batch_size (the source default is 500). -/
structure IndepCfg (d : ℕ) (OptS : Type) where
  upd : List (List ℚ) × OptS → List (List ℚ) × OptS
  sim : List ℚ → Fin d → Cx
  mats : List (Fin d → Fin d → Cx)
  true_e : List ℚ
  true_states : List (Fin d → Cx)
  fails : ℕ → Bool
  ebs : ℕ

/-- Loop state of the independent-mode run: current parameters and
optimizer state, the sticky out-of-memory flag, the recorded MSE
diagnostics, and the mean fidelities shown in the progress bar. -/
structure IndepState (OptS : Type) where
  params : List (List ℚ)
  opt : OptS
  oom : Bool
  MSE : List (Option ℚ)
  displayed : List (Option ℚ)

/-- The batched diagnostic attempt inside the try of vqe.train: raises
(Except.error) when the oracle says this invocation runs out of memory,
otherwise returns the jitted batched MSE. -/
def tryBatchedMSE {d : ℕ} {OptS : Type} (cfg : IndepCfg d OptS) (it : ℕ)
    (p : List (List ℚ)) : Except Unit (Option ℚ) :=
  if cfg.fails it then Except.error () else
    Except.ok (mse_diag_batched cfg.sim cfg.mats cfg.true_e p)

/-- One epoch of the independent-mode loop (the body of the for of
vqe.train): one optimizer update; on epochs with (it+1) divisible by
epochs_batch_size, record one MSE sample — through the batched path
under try when the oom flag is clear, switching the flag and recording
the non-batched value when the attempt raises, and through the
non-batched path once the flag is set — and show the mean fidelity in
the progress bar. -/
def epochStep {d : ℕ} {OptS : Type} (cfg : IndepCfg d OptS) (it : ℕ)
    (s : IndepState OptS) : IndepState OptS :=
  let pw := cfg.upd (s.params, s.opt)
  if (it + 1) % cfg.ebs = 0 then
    if s.oom = false then
      match tryBatchedMSE cfg it pw.1 with
      | Except.error _ =>
        { params := pw.1, opt := pw.2, oom := true
          MSE := s.MSE ++ [mse_diag_seq cfg.sim cfg.mats cfg.true_e pw.1]
          displayed := s.displayed ++ [vqe_fidelties cfg.true_states pw.1 cfg.sim] }
      | Except.ok v =>
        { params := pw.1, opt := pw.2, oom := false
          MSE := s.MSE ++ [v]
          displayed := s.displayed ++ [vqe_fidelties cfg.true_states pw.1 cfg.sim] }
    else
      { params := pw.1, opt := pw.2, oom := true
        MSE := s.MSE ++ [mse_diag_seq cfg.sim cfg.mats cfg.true_e pw.1]
        displayed := s.displayed ++ [vqe_fidelties cfg.true_states pw.1 cfg.sim] }
  else
    { params := pw.1, opt := pw.2, oom := s.oom, MSE := s.MSE, displayed := s.displayed }

/-- The independent-mode run: oom starts False, the MSE list starts
empty, and the loop walks epochs 0, 1, ..., n_epochs - 1. -/
def trainIndep {d : ℕ} {OptS : Type} (cfg : IndepCfg d OptS) (n_epochs : ℕ)
    (p0 : List (List ℚ)) (w0 : OptS) : IndepState OptS :=
  (List.range n_epochs).foldl (fun s it => epochStep cfg it s)
    { params := p0, opt := w0, oom := false, MSE := [], displayed := [] }

/-- Finalization (lines 349-354 of vqe.py): final energies and states,
computed through the jitted batched functions when the oom flag is still
clear and through the non-jitted ones once it is set. -/
def finalizeIndep {d : ℕ} {OptS : Type} (cfg : IndepCfg d OptS)
    (s : IndepState OptS) : List ℚ × List (Fin d → Cx) :=
  if s.oom = false then
    (j_v_compute_vqe_E cfg.sim cfg.mats s.params, s.params.map cfg.sim)
  else
    (v_compute_vqe_E cfg.sim cfg.mats s.params, s.params.map cfg.sim)

/-- A configuration forced onto the sequential (non-jitted) diagnostic
path from the very first diagnostic evaluation: every batched attempt
fails. -/
def seqOnly {d : ℕ} {OptS : Type} (cfg : IndepCfg d OptS) : IndepCfg d OptS :=
  { cfg with fails := fun _ => true }

/-- Parameters and optimizer state after m Adam updates (the update is
applied unconditionally once per epoch). -/
def paramsAfter {d : ℕ} {OptS : Type} (cfg : IndepCfg d OptS) (m : ℕ)
    (p0 : List (List ℚ)) (w0 : OptS) : List (List ℚ) × OptS :=
  cfg.upd^[m] (p0, w0)

/-! Concrete instances used to witness the theorems on small inputs. -/

/-- The first computational basis state on one qubit. -/
def e0 : Fin 2 → Cx := fun i => if i = 0 then 1 else 0

/-- The second computational basis state on one qubit. -/
def e1 : Fin 2 → Cx := fun i => if i = 0 then 0 else 1

/-- The 2 x 2 zero Hamiltonian. -/
def zeroM2 : Fin 2 → Fin 2 → Cx := fun _ _ => 0

/-- A concrete circuit simulator sending the parameter row [1] to e1 and
every other row to e0. -/
def simW : List ℚ → Fin 2 → Cx := fun p => if p = [1] then e1 else e0

/-- A concrete one-point independent-mode configuration. -/
def cfgW : IndepCfg 2 Unit where
  upd := id
  sim := fun _ => e0
  mats := [zeroM2]
  true_e := [0]
  true_states := [e0]
  fails := fun _ => false
  ebs := 1

/-- cfgW with the other reference state (same true energies). -/
def cfgW2 : IndepCfg 2 Unit := { cfgW with true_states := [e1] }

/-- cfgW with every batched diagnostic attempt failing. -/
def cfgF : IndepCfg 2 Unit := { cfgW with fails := fun _ => true }

/-- A concrete one-point Hamiltonian grid over diag(1, -1). -/
def gridW : HamGrid 2 where
  N := 1
  n_states := 1
  mat_Hs := [diagZ]
  true_e := [-1]
  recycle_rule := [0]

/-- A concrete circuit function consuming three parameters whatever the
placeholder is. -/
def circuitW : ℕ → List ℚ → ℕ := fun _ _ => 3

/-- A concrete RNG draw, always zero. -/
def randW : ℚ → ℚ → ℕ → ℕ → ℚ := fun _ _ _ _ => 0

/-! Component lemmas for the exact complex scalars. -/

namespace Cx

@[simp] theorem zero_re : (0 : Cx).re = 0 := rfl

@[simp] theorem zero_im : (0 : Cx).im = 0 := rfl

@[simp] theorem one_re : (1 : Cx).re = 1 := rfl

@[simp] theorem one_im : (1 : Cx).im = 0 := rfl

@[simp] theorem add_re (a b : Cx) : (a + b).re = a.re + b.re := rfl

@[simp] theorem add_im (a b : Cx) : (a + b).im = a.im + b.im := rfl

@[simp] theorem neg_re (a : Cx) : (-a).re = -a.re := rfl

@[simp] theorem neg_im (a : Cx) : (-a).im = -a.im := rfl

@[simp] theorem mul_re (a b : Cx) : (a * b).re = a.re * b.re - a.im * b.im := rfl

@[simp] theorem mul_im (a b : Cx) : (a * b).im = a.re * b.im + a.im * b.re := rfl

@[simp] theorem conj_re (a : Cx) : a.conj.re = a.re := rfl

@[simp] theorem conj_im (a : Cx) : a.conj.im = -a.im := rfl

@[simp] theorem ofRat_re (q : ℚ) : (ofRat q).re = q := rfl

@[simp] theorem ofRat_im (q : ℚ) : (ofRat q).im = 0 := rfl

@[simp] theorem conj_conj (a : Cx) : a.conj.conj = a := by
  apply Cx.ext <;> simp

theorem conj_add (a b : Cx) : (a + b).conj = a.conj + b.conj := by
  apply Cx.ext <;> (simp; try ring)

theorem conj_mul (a b : Cx) : (a * b).conj = a.conj * b.conj := by
  apply Cx.ext <;> (simp; try ring)

@[simp] theorem conj_zero : (0 : Cx).conj = 0 := by
  apply Cx.ext <;> simp

theorem normSq_nonneg (a : Cx) : 0 ≤ a.normSq :=
  add_nonneg (mul_self_nonneg _) (mul_self_nonneg _)

theorem normSq_eq_zero_iff (a : Cx) : a.normSq = 0 ↔ a = 0 := by
  constructor
  · intro h
    have hre := mul_self_nonneg a.re
    have him := mul_self_nonneg a.im
    have h1 : a.re * a.re = 0 := by
      have := a.normSq
      unfold normSq at h
      nlinarith
    have h2 : a.im * a.im = 0 := by
      unfold normSq at h
      nlinarith
    apply Cx.ext
    · exact mul_self_eq_zero.mp h1
    · exact mul_self_eq_zero.mp h2
  · intro h
    subst h
    simp [normSq]

theorem normSq_mul (a b : Cx) : (a * b).normSq = a.normSq * b.normSq := by
  simp [normSq]
  ring

theorem normSq_conj (a : Cx) : a.conj.normSq = a.normSq := by
  simp [normSq]

theorem re_sum {α : Type} (s : Finset α) (f : α → Cx) :
    (∑ i in s, f i).re = ∑ i in s, (f i).re :=
  map_sum reHom f s

theorem im_sum {α : Type} (s : Finset α) (f : α → Cx) :
    (∑ i in s, f i).im = ∑ i in s, (f i).im :=
  map_sum imHom f s

theorem conj_sum {α : Type} (s : Finset α) (f : α → Cx) :
    (∑ i in s, f i).conj = ∑ i in s, (f i).conj := by
  apply Cx.ext
  · simp [re_sum]
  · simp [im_sum, Finset.sum_neg_distrib]

end Cx

/-! Inner-product facts. -/

theorem sub_re_cx (a b : Cx) : (a - b).re = a.re - b.re := by
  rw [sub_eq_add_neg, Cx.add_re, Cx.neg_re]
  ring

theorem sub_im_cx (a b : Cx) : (a - b).im = a.im - b.im := by
  rw [sub_eq_add_neg, Cx.add_im, Cx.neg_im]
  ring

theorem dotc_conj {d : ℕ} (a b : Fin d → Cx) : (dotc a b).conj = dotc b a := by
  unfold dotc
  rw [Cx.conj_sum]
  apply Finset.sum_congr rfl
  intro i _
  apply Cx.ext <;> simp <;> ring

theorem dotc_self_re {d : ℕ} (a : Fin d → Cx) : (dotc a a).re = norm2 a := by
  unfold dotc norm2
  rw [Cx.re_sum]
  apply Finset.sum_congr rfl
  intro i _
  simp [Cx.normSq]
  try ring

theorem dotc_self_im {d : ℕ} (a : Fin d → Cx) : (dotc a a).im = 0 := by
  unfold dotc
  rw [Cx.im_sum]
  apply Finset.sum_eq_zero
  intro i _
  simp
  ring

theorem norm2_nonneg {d : ℕ} (a : Fin d → Cx) : 0 ≤ norm2 a :=
  Finset.sum_nonneg fun _ _ => Cx.normSq_nonneg _

theorem norm2_aux {d : ℕ} (a b : Fin d → Cx) :
    norm2 (fun i => Cx.ofRat (norm2 b) * a i - (dotc a b).conj * b i)
      = norm2 b * norm2 b * norm2 a - norm2 b * (dotc a b).normSq := by
  have point : ∀ i, (Cx.ofRat (norm2 b) * a i - (dotc a b).conj * b i).normSq
      = norm2 b * norm2 b * (a i).normSq + (dotc a b).normSq * (b i).normSq
        - 2 * norm2 b * ((dotc a b).re * ((a i).conj * b i).re
            + (dotc a b).im * ((a i).conj * b i).im) := by
    intro i
    simp [Cx.normSq, sub_re_cx, sub_im_cx]
    ring
  have hre : ∑ i, ((a i).conj * b i).re = (dotc a b).re := by
    unfold dotc
    rw [Cx.re_sum]
  have him : ∑ i, ((a i).conj * b i).im = (dotc a b).im := by
    unfold dotc
    rw [Cx.im_sum]
  unfold norm2
  calc (∑ i, (Cx.ofRat (∑ j, (b j).normSq) * a i - (dotc a b).conj * b i).normSq)
      = ∑ i, (norm2 b * norm2 b * (a i).normSq + (dotc a b).normSq * (b i).normSq
          - 2 * norm2 b * ((dotc a b).re * ((a i).conj * b i).re
              + (dotc a b).im * ((a i).conj * b i).im)) :=
        Finset.sum_congr rfl fun i _ => point i
    _ = (∑ i, norm2 b * norm2 b * (a i).normSq)
          + (∑ i, (dotc a b).normSq * (b i).normSq)
          - ∑ i, 2 * norm2 b * ((dotc a b).re * ((a i).conj * b i).re
              + (dotc a b).im * ((a i).conj * b i).im) := by
        rw [Finset.sum_sub_distrib, Finset.sum_add_distrib]
    _ = norm2 b * norm2 b * norm2 a + (dotc a b).normSq * norm2 b
          - 2 * norm2 b * ((dotc a b).re * (dotc a b).re
              + (dotc a b).im * (dotc a b).im) := by
        rw [← Finset.mul_sum, ← Finset.mul_sum, ← Finset.mul_sum]
        rw [Finset.sum_add_distrib, ← Finset.mul_sum, ← Finset.mul_sum, hre, him]
        rfl
    _ = norm2 b * norm2 b * norm2 a - norm2 b * (dotc a b).normSq := by
        simp [Cx.normSq]
        ring

theorem normSq_dotc_le {d : ℕ} (a b : Fin d → Cx) :
    (dotc a b).normSq ≤ norm2 a * norm2 b := by
  rcases eq_or_lt_of_le (norm2_nonneg b) with hB | hB
  · have hb : ∀ i, b i = 0 := by
      intro i
      have h0 := (Finset.sum_eq_zero_iff_of_nonneg
        (fun i _ => Cx.normSq_nonneg (b i))).mp hB.symm i (Finset.mem_univ i)
      exact (Cx.normSq_eq_zero_iff _).mp h0
    have hd : dotc a b = 0 := by
      unfold dotc
      apply Finset.sum_eq_zero
      intro i _
      rw [hb i, mul_zero]
    rw [hd]
    unfold norm2
    have : ∀ i, (b i).normSq = 0 := fun i => by rw [hb i]; simp [Cx.normSq]
    rw [Finset.sum_eq_zero fun i _ => this i, mul_zero]
    simp [Cx.normSq]
  · have h0 := norm2_nonneg (fun i => Cx.ofRat (norm2 b) * a i - (dotc a b).conj * b i)
    rw [norm2_aux] at h0
    have h1 : norm2 b * (dotc a b).normSq ≤ norm2 b * (norm2 a * norm2 b) := by nlinarith
    exact (mul_le_mul_left hB).mp h1

/-! Mean lemmas. -/

theorem meanQ_perm (l l' : List ℚ) (h : l.Perm l') : meanQ l = meanQ l' := by
  unfold meanQ
  by_cases hl : l = []
  · subst hl
    rw [List.Perm.eq_nil h.symm]
  · have hl' : l' ≠ [] := by
      intro hc
      subst hc
      exact hl (List.Perm.eq_nil h)
    rw [if_neg hl, if_neg hl', h.sum_eq, h.length_eq]

theorem meanQ_bounds (l : List ℚ) (hne : l ≠ [])
    (h0 : ∀ x ∈ l, 0 ≤ x) (h1 : ∀ x ∈ l, x ≤ 1) :
    ∃ r, meanQ l = some r ∧ 0 ≤ r ∧ r ≤ 1 := by
  have hlen : (0 : ℚ) < (l.length : ℚ) :=
    Nat.cast_pos.mpr (List.length_pos.mpr hne)
  refine ⟨l.sum / (l.length : ℚ), ?_, ?_, ?_⟩
  · unfold meanQ
    rw [if_neg hne]
  · exact div_nonneg (List.sum_nonneg h0) (le_of_lt hlen)
  · rw [div_le_one hlen]
    have := List.sum_le_card_nsmul l 1 h1
    simpa using this

/-! Fidelity lemmas. -/

theorem vqe_fidelty_nonneg {d : ℕ} (a b : Fin d → Cx) : 0 ≤ vqe_fidelty a b :=
  Cx.normSq_nonneg _

theorem vqe_fidelty_le_one {d : ℕ} (a b : Fin d → Cx)
    (ha : norm2 a = 1) (hb : norm2 b = 1) : vqe_fidelty a b ≤ 1 := by
  have h := normSq_dotc_le a b
  rw [ha, hb] at h
  simpa [vqe_fidelty] using h

theorem vqe_fidelty_comm {d : ℕ} (a b : Fin d → Cx) :
    vqe_fidelty a b = vqe_fidelty b a := by
  unfold vqe_fidelty
  rw [← Cx.normSq_conj (dotc a b), dotc_conj]

theorem vqe_fidelty_self {d : ℕ} (a : Fin d → Cx) (ha : norm2 a = 1) :
    vqe_fidelty a a = 1 := by
  unfold vqe_fidelty Cx.normSq
  rw [dotc_self_re, dotc_self_im, ha]
  norm_num

theorem dotc_smul_left {d : ℕ} (c : Cx) (a b : Fin d → Cx) :
    dotc (fun i => c * a i) b = c.conj * dotc a b := by
  unfold dotc
  rw [Finset.mul_sum]
  apply Finset.sum_congr rfl
  intro i _
  rw [Cx.conj_mul, mul_assoc]

theorem dotc_smul_right {d : ℕ} (c : Cx) (a b : Fin d → Cx) :
    dotc a (fun i => c * b i) = c * dotc a b := by
  unfold dotc
  rw [Finset.mul_sum]
  apply Finset.sum_congr rfl
  intro i _
  ring

theorem vqe_fidelty_phase_left {d : ℕ} (c : Cx) (a b : Fin d → Cx)
    (hc : c.normSq = 1) : vqe_fidelty (fun i => c * a i) b = vqe_fidelty a b := by
  unfold vqe_fidelty
  rw [dotc_smul_left, Cx.normSq_mul, Cx.normSq_conj, hc, one_mul]

theorem vqe_fidelty_phase_right {d : ℕ} (c : Cx) (a b : Fin d → Cx)
    (hc : c.normSq = 1) : vqe_fidelty a (fun i => c * b i) = vqe_fidelty a b := by
  unfold vqe_fidelty
  rw [dotc_smul_right, Cx.normSq_mul, hc, one_mul]

/-! Claim C5. -/

/-- C5: for all unit-norm states a and b, the fidelity
|conj(a) . b|^2 computed by losses.vqe_fidelties is a real number in
[0,1], is symmetric in its arguments, equals 1 on a pair of equal
states, and is invariant under multiplying either state by any
unit-modulus complex scalar (global phase). -/
theorem fidelity_unit_norm_props {d : ℕ} (a b : Fin d → Cx) (c : Cx)
    (ha : norm2 a = 1) (hb : norm2 b = 1) (hc : c.normSq = 1) :
    0 ≤ vqe_fidelty a b ∧ vqe_fidelty a b ≤ 1 ∧
    vqe_fidelty a b = vqe_fidelty b a ∧
    vqe_fidelty a a = 1 ∧
    vqe_fidelty (fun i => c * a i) b = vqe_fidelty a b ∧
    vqe_fidelty a (fun i => c * b i) = vqe_fidelty a b :=
  ⟨vqe_fidelty_nonneg a b, vqe_fidelty_le_one a b ha hb, vqe_fidelty_comm a b,
   vqe_fidelty_self a ha, vqe_fidelty_phase_left c a b hc,
   vqe_fidelty_phase_right c a b hc⟩

/-- Witness for C5 at the one-qubit basis states and the phase i. -/
theorem fidelity_unit_norm_props_witness :
    (norm2 e0 = 1 ∧ norm2 e1 = 1 ∧ Cx.normSq ⟨0, 1⟩ = 1) ∧
    (0 ≤ vqe_fidelty e0 e1 ∧ vqe_fidelty e0 e1 ≤ 1 ∧
      vqe_fidelty e0 e1 = vqe_fidelty e1 e0 ∧
      vqe_fidelty e0 e0 = 1 ∧
      vqe_fidelty (fun i => (⟨0, 1⟩ : Cx) * e0 i) e1 = vqe_fidelty e0 e1 ∧
      vqe_fidelty e0 (fun i => (⟨0, 1⟩ : Cx) * e1 i) = vqe_fidelty e0 e1) :=
  have h0 : norm2 e0 = 1 := by simp [norm2, Fin.sum_univ_two, e0, Cx.normSq]
  have h1 : norm2 e1 = 1 := by simp [norm2, Fin.sum_univ_two, e1, Cx.normSq]
  have hc : Cx.normSq ⟨0, 1⟩ = 1 := by simp [Cx.normSq]
  ⟨⟨h0, h1, hc⟩, fidelity_unit_norm_props e0 e1 ⟨0, 1⟩ h0 h1 hc⟩

/-! Expected-energy facts. -/

theorem compute_E_double {d : ℕ} (s : Fin d → Cx) (H : Fin d → Fin d → Cx) :
    compute_E s H = ∑ i, ∑ j, (s i).conj * H i j * s j := by
  unfold compute_E
  apply Finset.sum_congr rfl
  intro i _
  rw [Finset.mul_sum]
  apply Finset.sum_congr rfl
  intro j _
  ring

theorem compute_E_conj_eq {d : ℕ} (s : Fin d → Cx) (H : Fin d → Fin d → Cx)
    (hH : ∀ i j, H j i = (H i j).conj) :
    (compute_E s H).conj = compute_E s H := by
  rw [compute_E_double]
  calc (∑ i, ∑ j, (s i).conj * H i j * s j).conj
      = ∑ i, (∑ j, (s i).conj * H i j * s j).conj := Cx.conj_sum _ _
    _ = ∑ i, ∑ j, ((s i).conj * H i j * s j).conj := by
        apply Finset.sum_congr rfl
        intro i _
        exact Cx.conj_sum _ _
    _ = ∑ i, ∑ j, (s j).conj * H j i * s i := by
        apply Finset.sum_congr rfl
        intro i _
        apply Finset.sum_congr rfl
        intro j _
        rw [Cx.conj_mul, Cx.conj_mul, Cx.conj_conj, ← hH i j]
        ring
    _ = ∑ j, ∑ i, (s j).conj * H j i * s i := Finset.sum_comm

/-! Claim C6. -/

/-- C6: for every Hermitian matrix H and every simulated state, the
expected-energy path computes conj(s) . H . s (compute_E) and
compute_vqe_E returns its real part; Hermiticity makes the imaginary
component exactly zero, so the returned real part equals the full inner
product. -/
theorem expected_energy_hermitian_real {d : ℕ} (sim : List ℚ → Fin d → Cx)
    (p : List ℚ) (H : Fin d → Fin d → Cx)
    (hH : ∀ i j, H j i = (H i j).conj) :
    compute_vqe_E sim p H = (compute_E (sim p) H).re ∧
    (compute_E (sim p) H).im = 0 ∧
    Cx.ofRat (compute_vqe_E sim p H) = compute_E (sim p) H := by
  have hz : (compute_E (sim p) H).im = 0 := by
    have h := congrArg Cx.im (compute_E_conj_eq (sim p) H hH)
    rw [Cx.conj_im] at h
    linarith
  refine ⟨rfl, hz, ?_⟩
  apply Cx.ext
  · rfl
  · rw [hz]
    rfl

/-- Witness for C6 at the Hamiltonian diag(1, -1). -/
theorem expected_energy_hermitian_real_witness :
    (∀ i j, diagZ j i = (diagZ i j).conj) ∧
    (compute_vqe_E (fun _ => e0) [] diagZ = (compute_E e0 diagZ).re ∧
      (compute_E e0 diagZ).im = 0 ∧
      Cx.ofRat (compute_vqe_E (fun _ => e0) [] diagZ) = compute_E e0 diagZ) :=
  have hH : ∀ i j, diagZ j i = (diagZ i j).conj := by
    intro i j
    fin_cases i <;> fin_cases j <;> simp [diagZ, Cx.conj] <;> rfl
  ⟨hH, expected_energy_hermitian_real (fun _ => e0) [] diagZ hH⟩

/-! Neighbouring-pair facts. -/

theorem consecFids_eq_zip {d : ℕ} :
    ∀ states : List (Fin d → Cx),
      ((states.dropLast.zip (states.drop 1)).map fun p => vqe_fidelty p.1 p.2)
        = consecFids states := by
  intro states
  induction states with
  | nil => rfl
  | cons a t ih =>
    cases t with
    | nil => rfl
    | cons b r =>
      simp only [List.drop] at ih
      simp only [List.dropLast, List.drop, List.zip_cons_cons, List.map_cons,
        consecFids]
      rw [ih]

theorem consecFids_length {d : ℕ} :
    ∀ states : List (Fin d → Cx),
      (consecFids states).length = states.length - 1 := by
  intro states
  induction states with
  | nil => rfl
  | cons a t ih =>
    cases t with
    | nil => rfl
    | cons b r =>
      simp only [consecFids, List.length_cons] at ih ⊢
      omega

theorem consecFids_mem {d : ℕ} :
    ∀ (states : List (Fin d → Cx)) (x : ℚ), x ∈ consecFids states →
      ∃ u, u ∈ states ∧ ∃ v, v ∈ states ∧ x = vqe_fidelty u v := by
  intro states
  induction states with
  | nil =>
    intro x hx
    simp [consecFids] at hx
  | cons a t ih =>
    cases t with
    | nil =>
      intro x hx
      simp [consecFids] at hx
    | cons b r =>
      intro x hx
      simp only [consecFids, List.mem_cons] at hx
      rcases hx with hx | hx
      · exact ⟨a, by simp, b, by simp, hx⟩
      · rcases ih x hx with ⟨u, hu, v, hv, hx'⟩
        exact ⟨u, List.mem_cons_of_mem a hu, v, List.mem_cons_of_mem a hv, hx'⟩

/-! Claim C10. -/

/-- C10: the neighbouring-fidelity penalty of losses.py is the
arithmetic mean of the fidelities of exactly the consecutive index pairs
(state i, state i+1), of which there are n_states - 1; for unit-norm
state sequences of length at least two its value is a well-defined real
in [0,1], while for a single state it is the mean of an empty array and
hence a NaN (none). -/
theorem neighbouring_penalty_props (d : ℕ) :
    (∀ states : List (Fin d → Cx),
      vqe_fidelties_neighbouring states = meanQ (consecFids states) ∧
      (consecFids states).length = states.length - 1) ∧
    (∀ states : List (Fin d → Cx), 2 ≤ states.length →
      (∀ s ∈ states, norm2 s = 1) →
      ∃ r, vqe_fidelties_neighbouring states = some r ∧ 0 ≤ r ∧ r ≤ 1) ∧
    (∀ s0 : Fin d → Cx, vqe_fidelties_neighbouring [s0] = none) := by
  have hmean : ∀ states : List (Fin d → Cx),
      vqe_fidelties_neighbouring states = meanQ (consecFids states) := by
    intro states
    unfold vqe_fidelties_neighbouring
    rw [consecFids_eq_zip]
  refine ⟨fun states => ⟨hmean states, consecFids_length states⟩, ?_, ?_⟩
  · intro states h2 hnorm
    have hne : consecFids states ≠ [] := by
      intro hc
      have := consecFids_length states
      rw [hc] at this
      simp at this
      omega
    have hbnd : ∀ x ∈ consecFids states, 0 ≤ x ∧ x ≤ 1 := by
      intro x hx
      rcases consecFids_mem states x hx with ⟨u, hu, v, hv, hx'⟩
      subst hx'
      exact ⟨vqe_fidelty_nonneg u v,
        vqe_fidelty_le_one u v (hnorm u hu) (hnorm v hv)⟩
    rcases meanQ_bounds (consecFids states) hne
      (fun x hx => (hbnd x hx).1) (fun x hx => (hbnd x hx).2) with ⟨r, hr⟩
    exact ⟨r, by rw [hmean states]; exact hr.1, hr.2.1, hr.2.2⟩
  · intro s0
    rfl

/-- Witness for C10 at the two-state sequence [e0, e1] and the singleton
[e0]. -/
theorem neighbouring_penalty_props_witness :
    (2 ≤ ([e0, e1] : List (Fin 2 → Cx)).length ∧
      (∀ s ∈ ([e0, e1] : List (Fin 2 → Cx)), norm2 s = 1)) ∧
    (∃ r, vqe_fidelties_neighbouring [e0, e1] = some r ∧ 0 ≤ r ∧ r ≤ 1) ∧
    vqe_fidelties_neighbouring [e0] = none :=
  have h2 : 2 ≤ ([e0, e1] : List (Fin 2 → Cx)).length := by simp
  have hn : ∀ s ∈ ([e0, e1] : List (Fin 2 → Cx)), norm2 s = 1 := by
    intro s hs
    rcases List.mem_pair.mp hs with h | h <;> subst h <;>
      simp [norm2, Fin.sum_univ_two, e0, e1, Cx.normSq]
  ⟨⟨h2, hn⟩, (neighbouring_penalty_props 2).2.1 [e0, e1] h2 hn,
    (neighbouring_penalty_props 2).2.2 e0⟩

/-! Argmin facts. -/

theorem minIdx_eq_none {l : List ℚ} (h : minIdx l = none) : l = [] := by
  cases l with
  | nil => rfl
  | cons x xs =>
    exfalso
    unfold minIdx at h
    cases hm : minIdx xs with
    | none =>
      rw [hm] at h
      simp at h
    | some jv =>
      rw [hm] at h
      dsimp only at h
      by_cases hle : x ≤ jv.2
      · rw [if_pos hle] at h
        simp at h
      · rw [if_neg hle] at h
        simp at h

theorem minIdx_spec :
    ∀ (l : List ℚ) (j : ℕ) (v : ℚ), minIdx l = some (j, v) →
      l.get? j = some v ∧ ∀ x ∈ l, v ≤ x := by
  intro l
  induction l with
  | nil =>
    intro j v h
    simp [minIdx] at h
  | cons x xs ih =>
    intro j v h
    unfold minIdx at h
    cases hm : minIdx xs with
    | none =>
      rw [hm] at h
      have hxs : xs = [] := minIdx_eq_none hm
      subst hxs
      simp at h
      obtain ⟨hj, hv⟩ := h
      subst hj
      subst hv
      refine ⟨rfl, ?_⟩
      intro z hz
      simp at hz
      rw [hz]
    | some jv =>
      rw [hm] at h
      obtain ⟨j', v'⟩ := jv
      dsimp only at h
      have hspec := ih j' v' hm
      by_cases hle : x ≤ v'
      · rw [if_pos hle] at h
        simp at h
        obtain ⟨hj, hv⟩ := h
        subst hj
        subst hv
        refine ⟨rfl, ?_⟩
        intro z hz
        rcases List.mem_cons.mp hz with hz | hz
        · rw [hz]
        · exact le_trans hle (hspec.2 z hz)
      · rw [if_neg hle] at h
        simp at h
        obtain ⟨hj, hv⟩ := h
        subst hj
        subst hv
        refine ⟨hspec.1, ?_⟩
        intro z hz
        rcases List.mem_cons.mp hz with hz | hz
        · rw [hz]
          exact le_of_lt (lt_of_not_le hle)
        · exact hspec.2 z hz

/-! Eigenpair classification for the Hamiltonian diag(1, -1). -/

theorem diagZ_eigenpair (lam : ℚ) (v : Fin 2 → Cx)
    (heig : ∀ i, matVec diagZ v i = Cx.ofRat lam * v i)
    (hnorm : norm2 v = 1) :
    (lam = 1 ∧ v 1 = 0 ∧ (v 0).normSq = 1) ∨
    (lam = -1 ∧ v 0 = 0 ∧ (v 1).normSq = 1) := by
  have h0 := heig 0
  have h1 := heig 1
  simp [matVec, Fin.sum_univ_two, diagZ] at h0 h1
  have h0re := congrArg Cx.re h0
  have h0im := congrArg Cx.im h0
  have h1re := congrArg Cx.re h1
  have h1im := congrArg Cx.im h1
  simp [Cx.ofRat] at h0re h0im h1re h1im
  have hsum : (v 0).normSq + (v 1).normSq = 1 := by
    have := hnorm
    unfold norm2 at this
    rw [Fin.sum_univ_two] at this
    exact this
  by_cases hlam : lam = 1
  · subst hlam
    have hv1 : v 1 = 0 := by
      apply Cx.ext
      · simp
        linarith
      · simp
        linarith
    left
    refine ⟨rfl, hv1, ?_⟩
    rw [hv1] at hsum
    simpa [Cx.normSq] using hsum
  · by_cases hlam' : lam = -1
    · subst hlam'
      have hv0 : v 0 = 0 := by
        apply Cx.ext
        · simp
          linarith
        · simp
          linarith
      right
      refine ⟨rfl, hv0, ?_⟩
      rw [hv0] at hsum
      simpa [Cx.normSq] using hsum
    · exfalso
      have hz0re : (v 0).re * (1 - lam) = 0 := by linear_combination h0re
      have hz0im : (v 0).im * (1 - lam) = 0 := by linear_combination h0im
      have hz1re : (v 1).re * (1 + lam) = 0 := by linear_combination -h1re
      have hz1im : (v 1).im * (1 + lam) = 0 := by linear_combination -h1im
      have hne1 : (1 : ℚ) - lam ≠ 0 := fun hc => hlam (by linarith)
      have hne2 : (1 : ℚ) + lam ≠ 0 := fun hc => hlam' (by linarith)
      have hv0re : (v 0).re = 0 := by
        rcases mul_eq_zero.mp hz0re with h | h
        · exact h
        · exact absurd h hne1
      have hv0im : (v 0).im = 0 := by
        rcases mul_eq_zero.mp hz0im with h | h
        · exact h
        · exact absurd h hne1
      have hv1re : (v 1).re = 0 := by
        rcases mul_eq_zero.mp hz1re with h | h
        · exact h
        · exact absurd h hne2
      have hv1im : (v 1).im = 0 := by
        rcases mul_eq_zero.mp hz1im with h | h
        · exact h
        · exact absurd h hne2
      rw [Cx.normSq, Cx.normSq, hv0re, hv0im, hv1re, hv1im] at hsum
      norm_num at hsum

/-! Claim C7. -/

/-- C7: compute_true_state selects the eigenvector column at the first
minimum of the eigenvalue array (total even under exact degeneracy,
where the tie breaks to the earlier index), jv_compute_true_state aligns
the selected states index-for-index with the grid, and for any valid
orthonormal eigendecomposition of the 1-qubit Hamiltonian diag(1, -1)
the selected ground energy is -1 and the selected ground state is [0, 1]
up to global phase (first amplitude zero, second of unit modulus). -/
theorem ground_state_selection :
    (∀ (l : List ℚ) (j : ℕ) (v : ℚ), minIdx l = some (j, v) →
      l.get? j = some v ∧ ∀ x ∈ l, v ≤ x) ∧
    (∀ (d : ℕ) (eigh : (Fin d → Fin d → Cx) → List ℚ × List (Fin d → Cx))
      (mats : List (Fin d → Fin d → Cx)) (k : ℕ),
      (jv_compute_true_state eigh mats).length = mats.length ∧
      (jv_compute_true_state eigh mats).get? k
        = (mats.get? k).map fun H => compute_true_state (eigh H).1 (eigh H).2) ∧
    (∀ (lam0 lam1 : ℚ) (v0 v1 : Fin 2 → Cx),
      (∀ i, matVec diagZ v0 i = Cx.ofRat lam0 * v0 i) →
      (∀ i, matVec diagZ v1 i = Cx.ofRat lam1 * v1 i) →
      norm2 v0 = 1 → norm2 v1 = 1 → dotc v0 v1 = 0 →
      ∃ j g, minIdx [lam0, lam1] = some (j, -1) ∧
        compute_true_state [lam0, lam1] [v0, v1] = some g ∧
        g 0 = 0 ∧ (g 1).normSq = 1) := by
  refine ⟨minIdx_spec, ?_, ?_⟩
  · intro d eigh mats k
    exact ⟨List.length_map mats _, List.get?_map _ mats k⟩
  · intro lam0 lam1 v0 v1 he0 he1 hn0 hn1 hortho
    rcases diagZ_eigenpair lam0 v0 he0 hn0 with ⟨hl0, hz0, hs0⟩ | ⟨hl0, hz0, hs0⟩ <;>
      rcases diagZ_eigenpair lam1 v1 he1 hn1 with ⟨hl1, hz1, hs1⟩ | ⟨hl1, hz1, hs1⟩
    · exfalso
      have hd : dotc v0 v1 = (v0 0).conj * v1 0 := by
        unfold dotc
        rw [Fin.sum_univ_two, hz0]
        simp
      have hzero : ((v0 0).conj * v1 0).normSq = 0 := by
        rw [← hd, hortho]
        simp [Cx.normSq]
      rw [Cx.normSq_mul, Cx.normSq_conj, hs0, hs1] at hzero
      norm_num at hzero
    · subst hl0
      subst hl1
      refine ⟨1, v1, ?_, ?_, hz1, hs1⟩
      · simp [minIdx]
      · unfold compute_true_state
        have hmi : minIdx [(1 : ℚ), -1] = some (1, -1) := by
          simp [minIdx]
        rw [hmi]
        rfl
    · subst hl0
      subst hl1
      refine ⟨0, v0, ?_, ?_, hz0, hs0⟩
      · simp [minIdx]
      · unfold compute_true_state
        have hmi : minIdx [(-1 : ℚ), 1] = some (0, -1) := by
          simp [minIdx]
        rw [hmi]
        rfl
    · exfalso
      have hd : dotc v0 v1 = (v0 1).conj * v1 1 := by
        unfold dotc
        rw [Fin.sum_univ_two, hz0]
        simp
      have hzero : ((v0 1).conj * v1 1).normSq = 0 := by
        rw [← hd, hortho]
        simp [Cx.normSq]
      rw [Cx.normSq_mul, Cx.normSq_conj, hs0, hs1] at hzero
      norm_num at hzero

/-- Witness for C7: the argmin spec at the list [2, 1] and the
eigendecomposition contract at the decomposition ([1, -1], [e0, e1]) of
diag(1, -1). -/
theorem ground_state_selection_witness :
    (([2, 1] : List ℚ).get? 1 = some 1 ∧ ∀ x ∈ ([2, 1] : List ℚ), (1 : ℚ) ≤ x) ∧
    (∃ j g, minIdx [(1 : ℚ), -1] = some (j, -1) ∧
      compute_true_state [(1 : ℚ), -1] [e0, e1] = some g ∧
      g 0 = 0 ∧ (g 1).normSq = 1) :=
  have he0 : ∀ i, matVec diagZ e0 i = Cx.ofRat 1 * e0 i := by
    intro i
    fin_cases i <;> apply Cx.ext <;>
      simp [matVec, Fin.sum_univ_two, diagZ, e0, Cx.ofRat]
  have he1 : ∀ i, matVec diagZ e1 i = Cx.ofRat (-1) * e1 i := by
    intro i
    fin_cases i <;> apply Cx.ext <;>
      simp [matVec, Fin.sum_univ_two, diagZ, e1, Cx.ofRat]
  have hn0 : norm2 e0 = 1 := by simp [norm2, Fin.sum_univ_two, e0, Cx.normSq]
  have hn1 : norm2 e1 = 1 := by simp [norm2, Fin.sum_univ_two, e1, Cx.normSq]
  have ho : dotc e0 e1 = 0 := by
    apply Cx.ext <;> simp [dotc, Fin.sum_univ_two, e0, e1]
  ⟨ground_state_selection.1 [2, 1] 1 1 (by simp [minIdx]),
   ground_state_selection.2.2 1 (-1) e0 e1 he0 he1 hn0 hn1 ho⟩

/-! Claim C8. -/

/-- C8: vqe.__init__ discovers n_params by one invocation of the
circuit function on the oversized placeholder [0] * 10000, and allocates
the parameter tensor with n_states rows of n_params entries, each entry
one uniform draw over [-pi, pi]; whenever the RNG respects those bounds,
every entry of the tensor lies in [-pi, pi]. -/
theorem init_discovery_shape_range {d : ℕ} (Hs : HamGrid d)
    (circuit : ℕ → List ℚ → ℕ) (rand : ℚ → ℚ → ℕ → ℕ → ℚ) (piQ : ℚ)
    (hrand : ∀ i j, -piQ ≤ rand (-piQ) piQ i j ∧ rand (-piQ) piQ i j ≤ piQ) :
    (vqeInit Hs circuit rand piQ).n_params
        = circuit Hs.N (List.replicate 10000 0) ∧
    (vqeInit Hs circuit rand piQ).vqe_params.length = Hs.n_states ∧
    (∀ row ∈ (vqeInit Hs circuit rand piQ).vqe_params,
      row.length = (vqeInit Hs circuit rand piQ).n_params) ∧
    (∀ row ∈ (vqeInit Hs circuit rand piQ).vqe_params, ∀ x ∈ row,
      -piQ ≤ x ∧ x ≤ piQ) := by
  refine ⟨rfl, ?_, ?_, ?_⟩
  · show ((List.range Hs.n_states).map _).length = Hs.n_states
    rw [List.length_map, List.length_range]
  · intro row hrow
    rcases List.mem_map.mp hrow with ⟨i, _, hrowe⟩
    rw [← hrowe]
    show ((List.range _).map _).length = _
    rw [List.length_map, List.length_range]
    rfl
  · intro row hrow x hx
    rcases List.mem_map.mp hrow with ⟨i, _, hrowe⟩
    rw [← hrowe] at hx
    rcases List.mem_map.mp hx with ⟨j, _, hxe⟩
    rw [← hxe]
    exact hrand i j

/-- Witness for C8 at a one-point grid, a constant circuit function and
the zero RNG with pi stand-in 3. -/
theorem init_discovery_shape_range_witness :
    (∀ i j, -(3 : ℚ) ≤ randW (-3) 3 i j ∧ randW (-3) 3 i j ≤ 3) ∧
    ((vqeInit gridW circuitW randW 3).n_params
        = circuitW gridW.N (List.replicate 10000 0) ∧
      (vqeInit gridW circuitW randW 3).vqe_params.length = gridW.n_states ∧
      (∀ row ∈ (vqeInit gridW circuitW randW 3).vqe_params,
        row.length = (vqeInit gridW circuitW randW 3).n_params) ∧
      (∀ row ∈ (vqeInit gridW circuitW randW 3).vqe_params, ∀ x ∈ row,
        -(3 : ℚ) ≤ x ∧ x ≤ 3)) :=
  have h : ∀ i j, -(3 : ℚ) ≤ randW (-3) 3 i j ∧ randW (-3) 3 i j ≤ 3 := by
    intro i j
    norm_num [randW]
  ⟨h, init_discovery_shape_range gridW circuitW randW 3 h⟩

/-! Claim C9. -/

/-- C9: the save/load round trip preserves the Hamiltonian grid, the
circuit function and the parameter tensor exactly, so recomputing the
StateTensor and the energies (deterministic functions of those fields
through the abstract simulator) from the loaded engine reproduces the
original engine's final states and energies. -/
theorem save_load_roundtrip {d : ℕ} (v : VqeState d)
    (rand : ℚ → ℚ → ℕ → ℕ → ℚ) (piQ : ℚ)
    (sim : (ℕ → List ℚ → ℕ) → ℕ → List ℚ → Fin d → Cx) :
    (load_vqe (vqeSave v) rand piQ).vqe_params = v.vqe_params ∧
    (load_vqe (vqeSave v) rand piQ).Hs = v.Hs ∧
    (load_vqe (vqeSave v) rand piQ).circuit_fun = v.circuit_fun ∧
    recomputeStates sim (load_vqe (vqeSave v) rand piQ) = recomputeStates sim v ∧
    recomputeEnergies sim (load_vqe (vqeSave v) rand piQ) = recomputeEnergies sim v :=
  ⟨rfl, rfl, rfl, rfl, rfl⟩

/-! Claim C1. -/

/-- C1 (evaluation of the recycle branch at the claim's example): the
first trained phase of recycleSchedule is always grid index 0 with a
10 * n_epochs unregularized budget — vqe.train hardcodes idx = 0 rather
than reading recycle_rule[0] — so for the traversal order [2, 0, 3, 1]
the executed order of grid indices is [0, 0, 3, 1]: the first optimized
point is 0 and not 2, grid index 2 is never optimized, and point 0 is
regularized toward the converged state of point 0 itself rather than
point 2's. -/
theorem recycle_first_point_hardcoded :
    (∀ (rule : List ℕ) (n : ℕ),
      (recycleSchedule rule n).head? = some ⟨0, 10 * n, none⟩) ∧
    ((recycleSchedule [2, 0, 3, 1] 5).map TrainEvent.idx = [0, 0, 3, 1] ∧
      (recycleSchedule [2, 0, 3, 1] 5).head? = some ⟨0, 50, none⟩ ∧
      2 ∉ (recycleSchedule [2, 0, 3, 1] 5).map TrainEvent.idx ∧
      (recycleSchedule [2, 0, 3, 1] 5).get? 1 = some ⟨0, 5, some 0⟩) :=
  ⟨fun _ _ => rfl, by decide, by decide, by decide, by decide⟩

/-! Claim C3. -/

/-- C3: the independent-mode per-step loss is the mean expected energy
of the batched states, plus reg times the neighbouring-fidelity penalty
exactly when reg is nonzero; with reg = 0 the loss is invariant under
any simultaneous permutation of the grid points (parameter rows together
with their Hamiltonians), while for any reg > 0 there are grid orderings
of the same points with different loss values. -/
theorem indep_loss_reg_toggle :
    (∀ (d : ℕ) (sim : List ℚ → Fin d → Cx) (mats : List (Fin d → Fin d → Cx))
      (reg : ℚ) (params : List (List ℚ)), reg ≠ 0 →
      lossIndep sim mats reg params
        = match meanQ (v_compute_vqe_E sim mats params),
            vqe_fidelties_neighbouring (params.map sim) with
          | some m, some f => some (m + reg * f)
          | _, _ => none) ∧
    (∀ (d : ℕ) (sim : List ℚ → Fin d → Cx) (mats : List (Fin d → Fin d → Cx))
      (params : List (List ℚ)),
      lossIndep sim mats 0 params = meanQ (v_compute_vqe_E sim mats params)) ∧
    (∀ (d : ℕ) (sim : List ℚ → Fin d → Cx)
      (mats mats' : List (Fin d → Fin d → Cx)) (params params' : List (List ℚ)),
      (params.zip mats).Perm (params'.zip mats') →
      lossIndep sim mats 0 params = lossIndep sim mats' 0 params') ∧
    (∀ reg : ℚ, 0 < reg →
      ∃ (sim : List ℚ → Fin 2 → Cx) (mats mats' : List (Fin 2 → Fin 2 → Cx))
        (params params' : List (List ℚ)),
        (params.zip mats).Perm (params'.zip mats') ∧
        lossIndep sim mats reg params ≠ lossIndep sim mats' reg params') := by
  refine ⟨?_, ?_, ?_, ?_⟩
  · intro d sim mats reg params hreg
    unfold lossIndep
    rw [if_pos hreg]
    rfl
  · intro d sim mats params
    unfold lossIndep
    rw [if_neg (by simp)]
    rfl
  · intro d sim mats mats' params params' hperm
    have he : ∀ (ps : List (List ℚ)) (ms : List (Fin d → Fin d → Cx)),
        (((ps.map sim).zip ms).map fun p => (compute_E p.1 p.2).re)
          = (ps.zip ms).map fun q => (compute_E (sim q.1) q.2).re := by
      intro ps ms
      rw [List.zip_map_left, List.map_map]
      rfl
    unfold lossIndep
    rw [if_neg (by simp), if_neg (by simp)]
    apply meanQ_perm
    rw [he, he]
    exact hperm.map _
  · intro reg hreg
    have hne : reg ≠ 0 := ne_of_gt hreg
    refine ⟨simW, [zeroM2, zeroM2, zeroM2], [zeroM2, zeroM2, zeroM2],
      [[0], [1], [2]], [[0], [2], [1]],
      List.Perm.cons _ (List.Perm.swap _ _ _), ?_⟩
    simp [lossIndep, v_compute_vqe_E, vqe_fidelties_neighbouring, meanQ, simW,
      e0, e1, zeroM2, compute_E, dotc, vqe_fidelty, Cx.normSq,
      Fin.sum_univ_two, hne]

/-- Witness for C3 at concrete grids: the loss decomposition on a
one-point grid with reg = 1, the reg = 0 invariance under swapping the
last two of three points, and the reg = 1 ordering dependence. -/
theorem indep_loss_reg_toggle_witness :
    ((1 : ℚ) ≠ 0 ∧
      lossIndep simW [zeroM2] 1 [[0]]
        = match meanQ (v_compute_vqe_E simW [zeroM2] [[0]]),
            vqe_fidelties_neighbouring ([[(0 : ℚ)]].map simW) with
          | some m, some f => some (m + 1 * f)
          | _, _ => none) ∧
    lossIndep simW [zeroM2, zeroM2, zeroM2] 0 [[0], [1], [2]]
      = lossIndep simW [zeroM2, zeroM2, zeroM2] 0 [[0], [2], [1]] ∧
    (∃ (sim : List ℚ → Fin 2 → Cx) (mats mats' : List (Fin 2 → Fin 2 → Cx))
      (params params' : List (List ℚ)),
      (params.zip mats).Perm (params'.zip mats') ∧
      lossIndep sim mats 1 params ≠ lossIndep sim mats' 1 params') :=
  ⟨⟨by norm_num, indep_loss_reg_toggle.1 2 simW [zeroM2] 1 [[0]] (by norm_num)⟩,
   indep_loss_reg_toggle.2.2.1 2 simW [zeroM2, zeroM2, zeroM2]
     [zeroM2, zeroM2, zeroM2] [[0], [1], [2]] [[0], [2], [1]]
     (List.Perm.cons _ (List.Perm.swap _ _ _)),
   indep_loss_reg_toggle.2.2.2 1 (by norm_num)⟩

/-! Independent-mode loop facts. -/

theorem mse_diag_batched_eq_seq {d : ℕ} (sim : List ℚ → Fin d → Cx)
    (mats : List (Fin d → Fin d → Cx)) (true_e : List ℚ)
    (params : List (List ℚ)) :
    mse_diag_batched sim mats true_e params = mse_diag_seq sim mats true_e params :=
  rfl

theorem epochStep_oom_mono {d : ℕ} {OptS : Type} (cfg : IndepCfg d OptS)
    (it : ℕ) (s : IndepState OptS) (h : s.oom = true) :
    (epochStep cfg it s).oom = true := by
  unfold epochStep
  by_cases hd : (it + 1) % cfg.ebs = 0
  · rw [if_pos hd, h]
    simp
  · rw [if_neg hd]
    exact h

theorem epochStep_switch {d : ℕ} {OptS : Type} (cfg : IndepCfg d OptS)
    (it : ℕ) (s : IndepState OptS) (h : s.oom = false)
    (hd : (it + 1) % cfg.ebs = 0) (hf : cfg.fails it = true) :
    (epochStep cfg it s).oom = true ∧
    (epochStep cfg it s).MSE
      = s.MSE ++ [mse_diag_seq cfg.sim cfg.mats cfg.true_e
          (cfg.upd (s.params, s.opt)).1] := by
  unfold epochStep tryBatchedMSE
  rw [if_pos hd, h]
  simp [hf]

theorem finalizeIndep_fst {d : ℕ} {OptS : Type} (cfg : IndepCfg d OptS)
    (s : IndepState OptS) :
    (finalizeIndep cfg s).1 = v_compute_vqe_E cfg.sim cfg.mats s.params := by
  unfold finalizeIndep
  by_cases h : s.oom = false
  · rw [if_pos h]
    rfl
  · rw [if_neg h]


theorem finalizeIndep_snd {d : ℕ} {OptS : Type} (cfg : IndepCfg d OptS)
    (s : IndepState OptS) :
    (finalizeIndep cfg s).2 = s.params.map cfg.sim := by
  unfold finalizeIndep
  by_cases h : s.oom = false
  · rw [if_pos h]
  · rw [if_neg h]

theorem finalizeIndep_oom {d : ℕ} {OptS : Type} (cfg : IndepCfg d OptS)
    (s : IndepState OptS) (h : s.oom = true) :
    finalizeIndep cfg s
      = (v_compute_vqe_E cfg.sim cfg.mats s.params, s.params.map cfg.sim) := by
  unfold finalizeIndep
  rw [h]
  simp

theorem epochStep_fails_agree {d : ℕ} {OptS : Type} (cfg : IndepCfg d OptS)
    (fails' : ℕ → Bool) (it : ℕ) (s s' : IndepState OptS)
    (h1 : s.params = s'.params) (h2 : s.opt = s'.opt)
    (h3 : s.MSE = s'.MSE) (h4 : s.displayed = s'.displayed) :
    (epochStep cfg it s).params
        = (epochStep { cfg with fails := fails' } it s').params ∧
    (epochStep cfg it s).opt
        = (epochStep { cfg with fails := fails' } it s').opt ∧
    (epochStep cfg it s).MSE
        = (epochStep { cfg with fails := fails' } it s').MSE ∧
    (epochStep cfg it s).displayed
        = (epochStep { cfg with fails := fails' } it s').displayed := by
  unfold epochStep tryBatchedMSE
  by_cases hd : (it + 1) % cfg.ebs = 0
  · cases hso : s.oom <;> cases hso' : s'.oom <;>
      cases hf : cfg.fails it <;> cases hf' : fails' it <;>
        simp [hd, hso, hso', hf, hf', h1, h2, h3, h4,
          mse_diag_batched, mse_diag_seq, j_v_compute_vqe_E]
  · simp [hd, h1, h2, h3, h4]

theorem foldl_fails_agree {d : ℕ} {OptS : Type} (cfg : IndepCfg d OptS)
    (fails' : ℕ → Bool) :
    ∀ (l : List ℕ) (s s' : IndepState OptS),
      s.params = s'.params → s.opt = s'.opt → s.MSE = s'.MSE →
      s.displayed = s'.displayed →
      ((l.foldl (fun t it => epochStep cfg it t) s).params
          = (l.foldl (fun t it => epochStep { cfg with fails := fails' } it t) s').params) ∧
      ((l.foldl (fun t it => epochStep cfg it t) s).opt
          = (l.foldl (fun t it => epochStep { cfg with fails := fails' } it t) s').opt) ∧
      ((l.foldl (fun t it => epochStep cfg it t) s).MSE
          = (l.foldl (fun t it => epochStep { cfg with fails := fails' } it t) s').MSE) ∧
      ((l.foldl (fun t it => epochStep cfg it t) s).displayed
          = (l.foldl (fun t it => epochStep { cfg with fails := fails' } it t) s').displayed) := by
  intro l
  induction l with
  | nil =>
    intro s s' h1 h2 h3 h4
    exact ⟨h1, h2, h3, h4⟩
  | cons it rest ih =>
    intro s s' h1 h2 h3 h4
    have hstep := epochStep_fails_agree cfg fails' it s s' h1 h2 h3 h4
    exact ih (epochStep cfg it s) (epochStep { cfg with fails := fails' } it s')
      hstep.1 hstep.2.1 hstep.2.2.1 hstep.2.2.2

theorem epochStep_diag_fields {d : ℕ} {OptS : Type} (cfg : IndepCfg d OptS)
    (it : ℕ) (s : IndepState OptS) (hd : (it + 1) % cfg.ebs = 0) :
    (epochStep cfg it s).params = (cfg.upd (s.params, s.opt)).1 ∧
    (epochStep cfg it s).opt = (cfg.upd (s.params, s.opt)).2 ∧
    (epochStep cfg it s).MSE
      = s.MSE ++ [mse_diag_seq cfg.sim cfg.mats cfg.true_e
          (cfg.upd (s.params, s.opt)).1] ∧
    (epochStep cfg it s).displayed
      = s.displayed ++ [vqe_fidelties cfg.true_states
          (cfg.upd (s.params, s.opt)).1 cfg.sim] := by
  unfold epochStep tryBatchedMSE
  rw [if_pos hd]
  cases hso : s.oom <;> cases hf : cfg.fails it <;>
    simp [mse_diag_batched, mse_diag_seq, j_v_compute_vqe_E]

theorem epochStep_nondiag_fields {d : ℕ} {OptS : Type} (cfg : IndepCfg d OptS)
    (it : ℕ) (s : IndepState OptS) (hd : ¬ (it + 1) % cfg.ebs = 0) :
    (epochStep cfg it s).params = (cfg.upd (s.params, s.opt)).1 ∧
    (epochStep cfg it s).opt = (cfg.upd (s.params, s.opt)).2 ∧
    (epochStep cfg it s).MSE = s.MSE ∧
    (epochStep cfg it s).displayed = s.displayed := by
  unfold epochStep
  rw [if_neg hd]
  exact ⟨rfl, rfl, rfl, rfl⟩

theorem trainIndep_characterization {d : ℕ} {OptS : Type} (cfg : IndepCfg d OptS)
    (p0 : List (List ℚ)) (w0 : OptS) :
    ∀ n : ℕ,
      (trainIndep cfg n p0 w0).params = (paramsAfter cfg n p0 w0).1 ∧
      (trainIndep cfg n p0 w0).opt = (paramsAfter cfg n p0 w0).2 ∧
      (trainIndep cfg n p0 w0).MSE
        = (List.range (n / cfg.ebs)).map (fun k =>
            mse_diag_seq cfg.sim cfg.mats cfg.true_e
              (paramsAfter cfg ((k + 1) * cfg.ebs) p0 w0).1) ∧
      (trainIndep cfg n p0 w0).displayed
        = (List.range (n / cfg.ebs)).map (fun k =>
            vqe_fidelties cfg.true_states
              (paramsAfter cfg ((k + 1) * cfg.ebs) p0 w0).1 cfg.sim) := by
  intro n
  induction n with
  | zero =>
    refine ⟨rfl, rfl, ?_, ?_⟩ <;> simp [trainIndep, Nat.zero_div]
  | succ n ih =>
    have hstep : trainIndep cfg (n + 1) p0 w0
        = epochStep cfg n (trainIndep cfg n p0 w0) := by
      unfold trainIndep
      rw [List.range_succ, List.foldl_append]
      rfl
    obtain ⟨ihp, iho, ihm, ihd⟩ := ih
    have hpw : cfg.upd ((trainIndep cfg n p0 w0).params, (trainIndep cfg n p0 w0).opt)
        = paramsAfter cfg (n + 1) p0 w0 := by
      rw [ihp, iho]
      unfold paramsAfter
      rw [Function.iterate_succ_apply']
    rw [hstep]
    by_cases hd : (n + 1) % cfg.ebs = 0
    · have hebs : cfg.ebs ≠ 0 := by
        intro hc
        rw [hc] at hd
        omega
      have hdvd : cfg.ebs ∣ (n + 1) := Nat.dvd_of_mod_eq_zero hd
      have hdiv : (n + 1) / cfg.ebs = n / cfg.ebs + 1 := by
        rw [Nat.succ_div, if_pos hdvd]
      have hmul : (n / cfg.ebs + 1) * cfg.ebs = n + 1 := by
        rw [← hdiv]
        exact Nat.div_mul_cancel hdvd
      obtain ⟨hp', ho', hm', hdisp'⟩ :=
        epochStep_diag_fields cfg n (trainIndep cfg n p0 w0) hd
      refine ⟨?_, ?_, ?_, ?_⟩
      · rw [hp', hpw]
      · rw [ho', hpw]
      · rw [hm', ihm, hpw, hdiv, List.range_succ, List.map_append]
        simp [hmul]
      · rw [hdisp', ihd, hpw, hdiv, List.range_succ, List.map_append]
        simp [hmul]
    · have hnd : ¬ cfg.ebs ∣ (n + 1) := by
        intro hdvd
        rcases hdvd with ⟨c, hc⟩
        rw [hc] at hd
        simp [Nat.mul_mod_right] at hd
      have hdiv : (n + 1) / cfg.ebs = n / cfg.ebs := by
        rw [Nat.succ_div, if_neg hnd, Nat.add_zero]
      obtain ⟨hp', ho', hm', hdisp'⟩ :=
        epochStep_nondiag_fields cfg n (trainIndep cfg n p0 w0) hd
      refine ⟨?_, ?_, ?_, ?_⟩
      · rw [hp', hpw]
      · rw [ho', hpw]
      · rw [hm', ihm, hdiv]
      · rw [hdisp', ihd, hdiv]

/-! Claim C2. -/

/-- C2: a RuntimeError raised by the batched diagnostic attempt does not
abort the run — the diagnostic of that epoch is still recorded, through
the non-batched path — and it sets the sticky oom flag, which is never
cleared again, routes every later diagnostic and the finalization
through the non-batched path, and the recorded diagnostics (and the
finalization outputs) of any run equal those of the run forced onto the
sequential path from the start. -/
theorem oom_fallback_contract :
    (∀ (d : ℕ) (OptS : Type) (cfg : IndepCfg d OptS) (it : ℕ)
      (s : IndepState OptS),
      s.oom = true → (epochStep cfg it s).oom = true) ∧
    (∀ (d : ℕ) (OptS : Type) (cfg : IndepCfg d OptS) (it : ℕ)
      (s : IndepState OptS),
      s.oom = false → (it + 1) % cfg.ebs = 0 → cfg.fails it = true →
      (epochStep cfg it s).oom = true ∧
      (epochStep cfg it s).MSE
        = s.MSE ++ [mse_diag_seq cfg.sim cfg.mats cfg.true_e
            (cfg.upd (s.params, s.opt)).1]) ∧
    (∀ (d : ℕ) (OptS : Type) (cfg : IndepCfg d OptS) (s : IndepState OptS),
      s.oom = true →
      finalizeIndep cfg s
        = (v_compute_vqe_E cfg.sim cfg.mats s.params, s.params.map cfg.sim)) ∧
    (∀ (d : ℕ) (OptS : Type) (cfg : IndepCfg d OptS) (n : ℕ)
      (p0 : List (List ℚ)) (w0 : OptS),
      (trainIndep cfg n p0 w0).MSE.length = n / cfg.ebs ∧
      (trainIndep cfg n p0 w0).MSE = (trainIndep (seqOnly cfg) n p0 w0).MSE ∧
      (finalizeIndep cfg (trainIndep cfg n p0 w0)).1
        = (finalizeIndep (seqOnly cfg) (trainIndep (seqOnly cfg) n p0 w0)).1 ∧
      (finalizeIndep cfg (trainIndep cfg n p0 w0)).2
        = (finalizeIndep (seqOnly cfg) (trainIndep (seqOnly cfg) n p0 w0)).2) := by
  refine ⟨?_, ?_, ?_, ?_⟩
  · intro d OptS cfg it s h
    exact epochStep_oom_mono cfg it s h
  · intro d OptS cfg it s h hd hf
    exact epochStep_switch cfg it s h hd hf
  · intro d OptS cfg s h
    exact finalizeIndep_oom cfg s h
  · intro d OptS cfg n p0 w0
    have hagree := foldl_fails_agree cfg (fun _ => true) (List.range n)
      { params := p0, opt := w0, oom := false, MSE := [], displayed := [] }
      { params := p0, opt := w0, oom := false, MSE := [], displayed := [] }
      rfl rfl rfl rfl
    have hmse : (trainIndep cfg n p0 w0).MSE
        = (trainIndep (seqOnly cfg) n p0 w0).MSE := hagree.2.2.1
    have hparams : (trainIndep cfg n p0 w0).params
        = (trainIndep (seqOnly cfg) n p0 w0).params := hagree.1
    refine ⟨?_, hmse, ?_, ?_⟩
    · rw [(trainIndep_characterization cfg p0 w0 n).2.2.1,
        List.length_map, List.length_range]
    · rw [finalizeIndep_fst, finalizeIndep_fst, hparams]
      rfl
    · rw [finalizeIndep_snd, finalizeIndep_snd, hparams]
      rfl

/-- Witness for C2 at a one-point configuration whose every batched
diagnostic attempt fails. -/
theorem oom_fallback_contract_witness :
    ((epochStep cfgF 0 ⟨[[0]], (), true, [], []⟩).oom = true) ∧
    ((epochStep cfgF 0 ⟨[[0]], (), false, [], []⟩).oom = true ∧
      (epochStep cfgF 0 ⟨[[0]], (), false, [], []⟩).MSE
        = [] ++ [mse_diag_seq cfgF.sim cfgF.mats cfgF.true_e
            (cfgF.upd ([[0]], ())).1]) ∧
    (finalizeIndep cfgF ⟨[[0]], (), true, [], []⟩
      = (v_compute_vqe_E cfgF.sim cfgF.mats [[0]], [[(0 : ℚ)]].map cfgF.sim)) ∧
    ((trainIndep cfgF 1 [[0]] ()).MSE.length = 1 / cfgF.ebs ∧
      (trainIndep cfgF 1 [[0]] ()).MSE = (trainIndep (seqOnly cfgF) 1 [[0]] ()).MSE ∧
      (finalizeIndep cfgF (trainIndep cfgF 1 [[0]] ())).1
        = (finalizeIndep (seqOnly cfgF) (trainIndep (seqOnly cfgF) 1 [[0]] ())).1 ∧
      (finalizeIndep cfgF (trainIndep cfgF 1 [[0]] ())).2
        = (finalizeIndep (seqOnly cfgF) (trainIndep (seqOnly cfgF) 1 [[0]] ())).2) :=
  ⟨oom_fallback_contract.1 2 Unit cfgF 0 ⟨[[0]], (), true, [], []⟩ rfl,
   oom_fallback_contract.2.1 2 Unit cfgF 0 ⟨[[0]], (), false, [], []⟩ rfl
     (by decide) rfl,
   oom_fallback_contract.2.2.1 2 Unit cfgF ⟨[[0]], (), true, [], []⟩ rfl,
   oom_fallback_contract.2.2.2 2 Unit cfgF 1 [[0]] ()⟩

/-! Claim C4. -/

/-- Counterexample for C4 as stated: two runs that differ only in the
reference states — hence in the mean fidelity evaluated at the
diagnostic epoch — record identical diagnostics sequences, so the
recorded diagnostic sample contains no mean-fidelity component (only the
MSE is recorded; the fidelity is merely displayed). -/
theorem diagnostics_fidelity_not_recorded :
    (trainIndep cfgW 1 [[0]] ()).MSE = (trainIndep cfgW2 1 [[0]] ()).MSE ∧
    (trainIndep cfgW 1 [[0]] ()).displayed
      ≠ (trainIndep cfgW2 1 [[0]] ()).displayed := by
  constructor <;>
    simp [trainIndep, epochStep, tryBatchedMSE, cfgW, cfgW2, mse_diag_batched,
      mse_diag_seq, j_v_compute_vqe_E, v_compute_vqe_E, vqe_fidelties, vqe_fidelty,
      meanQ, dotc, e0, e1, zeroM2, compute_E, Cx.normSq, Fin.sum_univ_two,
      List.range_succ]

/-- C4 (amended): every epochs_batch_size epochs the engine evaluates
both diagnostics — it records the MSE sample into the diagnostics
sequence, which starts empty at run start and grows by one sample per
diagnostic epoch, and evaluates the mean fidelity at exactly the same
epochs but only displays it (one displayed value per recorded sample,
none of them stored in the MSE sequence). -/
theorem diagnostics_mse_schedule :
    ∀ (d : ℕ) (OptS : Type) (cfg : IndepCfg d OptS) (n : ℕ)
      (p0 : List (List ℚ)) (w0 : OptS),
      (trainIndep cfg n p0 w0).MSE
        = (List.range (n / cfg.ebs)).map (fun k =>
            mse_diag_batched cfg.sim cfg.mats cfg.true_e
              (paramsAfter cfg ((k + 1) * cfg.ebs) p0 w0).1) ∧
      (trainIndep cfg n p0 w0).displayed
        = (List.range (n / cfg.ebs)).map (fun k =>
            vqe_fidelties cfg.true_states
              (paramsAfter cfg ((k + 1) * cfg.ebs) p0 w0).1 cfg.sim) ∧
      (trainIndep cfg n p0 w0).displayed.length
        = (trainIndep cfg n p0 w0).MSE.length := by
  intro d OptS cfg n p0 w0
  obtain ⟨_, _, hm, hd⟩ := trainIndep_characterization cfg p0 w0 n
  refine ⟨?_, hd, ?_⟩
  · rw [hm]
    rfl
  · rw [hm, hd, List.length_map, List.length_map]
